import Mathlib

/-!
Shallow embedding of the Binary Ninja MCP client (src/client.ts).

The embedding models:
* the line-delimited JSON wire format produced by JSON.stringify and
  consumed by JSON.parse, restricted to integer numerals, which is the
  numeric shape this protocol uses for its request identifiers;
* the client state of BinaryNinjaClient: liveness of the subprocess and
  its reader, the requestId counter, and the pendingRequests table,
  together with the stdout line handler, the per-attempt timeout
  handler, the teardown path, and the retry loop of sendRequest.

Callers awaiting a pending request are identified by abstract tokens
(Nat).  Settling a pending request is modelled as emitting a settlement
record naming the request id, the caller token, the outcome delivered,
and which of the three removal paths fired.
-/

/-- JSON values, with numbers restricted to integers: the client
protocol uses an integer counter for request ids and this embedding
only needs to be faithful on the frames the client itself produces. -/
inductive Json where
  | null : Json
  | bool (b : Bool) : Json
  | num (n : Int) : Json
  | str (s : String) : Json
  | arr (elems : List Json) : Json
  | obj (fields : List (String × Json)) : Json

mutual

/-- Node-count measure of a JSON value, used for parser fuel accounting. -/
def jsize : Json → Nat
| Json.null => 1
| Json.bool _ => 1
| Json.num _ => 1
| Json.str _ => 1
| Json.arr xs => 1 + jsizeL xs
| Json.obj fs => 1 + jsizeF fs

def jsizeL : List Json → Nat
| [] => 1
| x :: xs => jsize x + jsizeL xs

def jsizeF : List (String × Json) → Nat
| [] => 1
| (_, v) :: fs => jsize v + jsizeF fs

end

def isDigitC (c : Char) : Bool := 48 ≤ c.toNat && c.toNat ≤ 57

def digitVal (c : Char) : Nat := c.toNat - 48

def digitChar (d : Nat) : Char := Char.ofNat (48 + d)

/-- Big-endian decimal digits of a natural number (the digits of 0 are [0]). -/
def natDigits (n : Nat) : List Nat := if n = 0 then [0] else (Nat.digits 10 n).reverse

def printNat (n : Nat) : List Char := (natDigits n).map digitChar

/-- Decimal rendering of an integer, as JSON.stringify renders the
integer-valued numbers this client exchanges. -/
def printInt (n : Int) : List Char :=
  if n < 0 then '-' :: printNat n.natAbs else printNat n.toNat

/-- String-character escaping as performed by JSON.stringify on the
characters relevant here: quote, backslash and newline are escaped,
other characters pass through. -/
def escChar (c : Char) : List Char :=
  if c = '"' ∨ c = '\\' then [ '\\', c]
  else if c = '\n' then [ '\\', 'n'] else [c]

def escList : List Char → List Char
| [] => []
| c :: t => escChar c ++ escList t

def printStrChars (l : List Char) : List Char := '"' :: escList l ++ [ '"' ]

mutual

/-- Compact JSON serialization, mirroring JSON.stringify output
(no whitespace, fields in insertion order). -/
def printVal : Json → List Char
| Json.null => [ 'n', 'u', 'l', 'l' ]
| Json.bool true => [ 't', 'r', 'u', 'e' ]
| Json.bool false => [ 'f', 'a', 'l', 's', 'e' ]
| Json.num n => printInt n
| Json.str s => printStrChars s.data
| Json.arr xs => '[' :: printList xs ++ [ ']' ]
| Json.obj fs => '{' :: printFields fs ++ [ '}' ]

def printList : List Json → List Char
| [] => []
| [x] => printVal x
| x :: y :: t => printVal x ++ ',' :: printList (y :: t)

def printFields : List (String × Json) → List Char
| [] => []
| [(k, v)] => printStrChars k.data ++ ':' :: printVal v
| (k, v) :: kv :: t => printStrChars k.data ++ ':' :: printVal v ++ ',' :: printFields (kv :: t)

end

def unescChar (c : Char) : Char := if c = 'n' then '\n' else c

/-- Parse the body of a JSON string (the part after the opening quote)
up to its closing quote, undoing the escapes of escChar. -/
def parseStr : List Char → Option (List Char × List Char)
| [] => none
| c :: rest =>
  if c = '"' then some ([], rest)
  else if c = '\\' then
    match rest with
    | [] => none
    | e :: rest2 =>
      match parseStr rest2 with
      | none => none
      | some (s, r) => some (unescChar e :: s, r)
  else
    match parseStr rest with
    | none => none
    | some (s, r) => some (c :: s, r)

/-- Parse a nonempty run of decimal digits as a natural number. -/
def parseNat (cs : List Char) : Option (Nat × List Char) :=
  if cs.takeWhile isDigitC = [] then none
  else some ((cs.takeWhile isDigitC).foldl (fun a c => a * 10 + digitVal c) 0,
             cs.dropWhile isDigitC)

def ParseFun (α : Type) : Type := List Char → Option (α × List Char)

def parseValBody (pe : ParseFun (List Json)) (pf : ParseFun (List (String × Json))) : ParseFun Json := fun cs =>
  match cs with
  | [] => none
  | c :: rest =>
    if c = 'n' then
      match rest with
      | 'u' :: 'l' :: 'l' :: r => some (Json.null, r)
      | _ => none
    else if c = 't' then
      match rest with
      | 'r' :: 'u' :: 'e' :: r => some (Json.bool true, r)
      | _ => none
    else if c = 'f' then
      match rest with
      | 'a' :: 'l' :: 's' :: 'e' :: r => some (Json.bool false, r)
      | _ => none
    else if c = '"' then
      (parseStr rest).map (fun p => (Json.str (String.mk p.1), p.2))
    else if c = '[' then
      (pe rest).map (fun p => (Json.arr p.1, p.2))
    else if c = '{' then
      (pf rest).map (fun p => (Json.obj p.1, p.2))
    else if c = '-' then
      (parseNat rest).map (fun p => (Json.num (-(p.1 : Int)), p.2))
    else if isDigitC c then
      (parseNat (c :: rest)).map (fun p => (Json.num (p.1 : Int), p.2))
    else none

/-- Continuation after one array element: a comma continues the list, a
closing bracket ends it. -/
def afterElem (pe : ParseFun (List Json)) (v : Json) : List Char → Option (List Json × List Char)
| ',' :: r2 => (pe r2).map (fun p => (v :: p.1, p.2))
| ']' :: r2 => some ([v], r2)
| _ => none

def parseElemsBody (pv : ParseFun Json) (pe : ParseFun (List Json)) : ParseFun (List Json) := fun cs =>
  match cs with
  | [] => none
  | c :: rest =>
    if c = ']' then some ([], rest)
    else (pv (c :: rest)).bind (fun p => afterElem pe p.1 p.2)

/-- Continuation after one object field value: a comma continues the
fields, a closing brace ends them. -/
def afterField (pf : ParseFun (List (String × Json))) (k : String) (v : Json) :
    List Char → Option (List (String × Json) × List Char)
| ',' :: r4 => (pf r4).map (fun p => ((k, v) :: p.1, p.2))
| '}' :: r4 => some ([(k, v)], r4)
| _ => none

/-- Continuation after an object key: expect a colon then the value. -/
def afterKey (pv : ParseFun Json) (pf : ParseFun (List (String × Json))) (k : String) :
    List Char → Option (List (String × Json) × List Char)
| ':' :: r2 => (pv r2).bind (fun q => afterField pf k q.1 q.2)
| _ => none

def parseFieldsBody (pv : ParseFun Json) (pf : ParseFun (List (String × Json))) : ParseFun (List (String × Json)) := fun cs =>
  match cs with
  | [] => none
  | c :: rest =>
    if c = '}' then some ([], rest)
    else if c = '"' then
      (parseStr rest).bind (fun p => afterKey pv pf (String.mk p.1) p.2)
    else none

def noParse {α : Type} : ParseFun α := fun _ => none

/-- Fuel-indexed family of the three JSON grammar productions: a value,
the elements of an array after its opening bracket, and the fields of an
object after its opening brace. -/
def parsersAt : Nat → ParseFun Json × ParseFun (List Json) × ParseFun (List (String × Json))
| 0 => (noParse, noParse, noParse)
| f + 1 =>
  (parseValBody (parsersAt f).2.1 (parsersAt f).2.2,
   parseElemsBody (parsersAt f).1 (parsersAt f).2.1,
   parseFieldsBody (parsersAt f).1 (parsersAt f).2.2)

def parseVal (f : Nat) : ParseFun Json := (parsersAt f).1

def parseElems (f : Nat) : ParseFun (List Json) := (parsersAt f).2.1

def parseFields (f : Nat) : ParseFun (List (String × Json)) := (parsersAt f).2.2

def headNotDig : List Char → Bool
| [] => true
| c :: _ => !(isDigitC c)

def isWsChar (c : Char) : Bool := c = ' ' || c = '\n' || c = '\t' || c = '\r'

/-- Model of JSON.parse applied to one received line: parse a single
JSON value and require that only whitespace follows it. -/
def parseJsonChars (l : List Char) : Option Json :=
  match parseVal (l.length + 1) l with
  | some (v, rest) => if rest.all isWsChar then some v else none
  | none => none

namespace Client

/-- State of a BinaryNinjaClient (src/client.ts lines 29-32): whether
serverProcess and rl are both non-null, the requestId counter, and the
pendingRequests table as an insertion-ordered association list from
request id to an abstract caller token. -/
structure CState where
  up : Bool
  nextId : Int
  pending : List (Int × Nat)
deriving DecidableEq

/-- Initial field values: serverProcess and rl null, requestId = 1,
empty pending table. -/
def initState : CState := ⟨false, 1, []⟩

def pkeys (l : List (Int × Nat)) : List Int := l.map Prod.fst

/-- Lookup in the pending table, as Map.get keyed by request id. -/
def plook : List (Int × Nat) → Int → Option Nat
| [], _ => none
| (k, v) :: rest, i => if k = i then some v else plook rest i

/-- Removal from the pending table, as Map.delete keyed by request id. -/
def perase : List (Int × Nat) → Int → List (Int × Nat)
| [], _ => []
| (k, v) :: rest, i => if k = i then rest else (k, v) :: perase rest i

/-- Decoded response shape (interface McpResponse, lines 21-26) as read
off a parsed JSON line: id is present only when the line is an object
carrying an integer id field (any other shape never matches a numeric
Map key), and error and traceback are taken when string-valued, the
type the protocol gives them. -/
structure McpResponse where
  id : Option Int
  result : Option Json
  error : Option String
  traceback : Option String

/-- Field access on a parsed JSON value; on duplicate keys JSON.parse
keeps the last occurrence. -/
def fieldLookup : List (String × Json) → String → Option Json
| [], _ => none
| (k2, v) :: rest, k =>
  match fieldLookup rest k with
  | some r => some r
  | none => if k2 = k then some v else none

def getField (j : Json) (k : String) : Option Json :=
  match j with
  | Json.obj fs => fieldLookup fs k
  | _ => none

def decodeResponse (j : Json) : McpResponse :=
  ⟨(match getField j "id" with | some (Json.num n) => some n | _ => none),
   getField j "result",
   (match getField j "error" with | some (Json.str s) => some s | _ => none),
   (match getField j "traceback" with | some (Json.str s) => some s | _ => none)⟩

/-- What a settled waiter observes: its promise resolved with
response.result, or rejected with an Error message. -/
inductive Outcome where
  | resolved (result : Option Json)
  | rejected (message : String)

/-- Which of the three removal paths settled a pending request. -/
inductive SettlePath where
  | byResponse
  | byTimeout
  | byTeardown
deriving DecidableEq

/-- Record of one pending request being settled and removed. -/
structure Settlement where
  id : Int
  caller : Nat
  outcome : Outcome
  path : SettlePath

def connectionClosedMsg : String := "Server connection closed"

def notStartedMsg : String := "Server not started"

def parseErrorLog : String := "Error parsing server response"

def timeoutMessage (method : String) : String :=
  "Request timed out after 30 seconds: " ++ method

/-- The literal delay passed to setTimeout on line 114. -/
def attemptTimerMs : Nat := 30000

def pingMethod : String := "ping"

/-- Outcome delivered to a matched waiter (lines 54-61): the branch is
chosen by the truthiness of response.error, so reject only when error is
a non-empty string, carrying the error text, a newline and
traceback-or-empty; otherwise resolve with response.result. -/
def outcomeOf (r : McpResponse) : Outcome :=
  match r.error with
  | some e =>
    if e = "" then Outcome.resolved r.result
    else Outcome.rejected (e ++ "\n" ++ r.traceback.getD "")
  | none => Outcome.resolved r.result

/-- Effect of the stdout line handler on a decoded response
(lines 52-61): look the id up in pendingRequests; if found, settle that
waiter with outcomeOf and delete the entry; otherwise do nothing. -/
def handleResponse (s : CState) (r : McpResponse) : CState × List Settlement :=
  match r.id with
  | none => (s, [])
  | some i =>
    match plook s.pending i with
    | none => (s, [])
    | some c =>
      (⟨s.up, s.nextId, perase s.pending i⟩,
       [⟨i, c, outcomeOf r, SettlePath.byResponse⟩])

/-- Full line handler (lines 49-65): JSON.parse the line inside
try/catch; a parse failure is logged by the catch and nothing else
happens; a parsed line is dispatched through handleResponse.  The third
component lists the console.error log lines emitted. -/
def handleLine (s : CState) (line : List Char) : CState × List Settlement × List String :=
  match parseJsonChars line with
  | none => (s, [], [parseErrorLog])
  | some j =>
    match handleResponse s (decodeResponse j) with
    | (s2, st) => (s2, st, [])

/-- The setTimeout callback for one attempt (lines 109-114): if the id
is still pending, delete it and reject with the timeout message;
otherwise do nothing. -/
def handleTimeout (s : CState) (i : Int) (method : String) : CState × List Settlement :=
  match plook s.pending i with
  | none => (s, [])
  | some c =>
    (⟨s.up, s.nextId, perase s.pending i⟩,
     [⟨i, c, Outcome.rejected (timeoutMessage method), SettlePath.byTimeout⟩])

/-- cleanup (lines 158-174): close the reader and kill the process
(both fields become null), then reject every pending request with the
connection-closed error and delete it. -/
def cleanup (s : CState) : CState × List Settlement :=
  (⟨false, s.nextId, []⟩,
   s.pending.map (fun p => ⟨p.1, p.2, Outcome.rejected connectionClosedMsg, SettlePath.byTeardown⟩))

/-- The not-started guard at the top of sendRequest (lines 94-96). -/
def sendRequestGuard (s : CState) : Except String Unit :=
  if s.up then Except.ok () else Except.error notStartedMsg

/-- Registration of one attempt (lines 105 and 116-125): take the
current requestId, increment the counter, and insert the waiter; Map
insertion order places the new entry last. -/
def registerPending (s : CState) (c : Nat) : CState × Int :=
  (⟨s.up, s.nextId + 1, s.pending ++ [(s.nextId, c)]⟩, s.nextId)

/-- Outgoing request shape (interface McpRequest, lines 15-19). -/
structure McpRequest where
  id : Int
  method : String
  params : Option (List (String × Json))

/-- The object literal of line 106 as JSON.stringify sees it: insertion
order id, method, params, with an undefined params field omitted. -/
def reqToJson (r : McpRequest) : Json :=
  Json.obj (("id", Json.num r.id) :: ("method", Json.str r.method) ::
    (match r.params with | none => [] | some ps => [("params", Json.obj ps)]))

/-- Line 127: JSON.stringify(request) + a newline, written to stdin. -/
def serializeRequest (r : McpRequest) : List Char :=
  printVal (reqToJson r) ++ [ '\n' ]

/-- Everything one attempt of sendRequest does before awaiting
(lines 104-127): allocate the id, schedule the 30000 ms timer, register
the waiter, and write the serialized frame. -/
structure AttemptStart where
  state : CState
  reqId : Int
  timerDelayMs : Nat
  wire : List Char

def startAttempt (s : CState) (c : Nat) (method : String)
    (params : Option (List (String × Json))) : AttemptStart :=
  ⟨(registerPending s c).1, (registerPending s c).2, attemptTimerMs,
   serializeRequest ⟨(registerPending s c).2, method, params⟩⟩

/-- Result of one awaited attempt as the retry loop observes it. -/
inductive AttemptResult where
  | success (v : Option Json)
  | failure (e : String)

/-- The options argument of sendRequest (line 92). -/
structure RequestOptions where
  maxRetries : Option Nat
  retryDelay : Option Nat
deriving DecidableEq

/-- Line 98: options.maxRetries with nullish default 3. -/
def RequestOptions.resolvedMaxRetries (o : RequestOptions) : Nat := o.maxRetries.getD 3

/-- Line 99: options.retryDelay with nullish default 1000. -/
def RequestOptions.resolvedRetryDelay (o : RequestOptions) : Nat := o.retryDelay.getD 1000

/-- The retry loop of sendRequest (lines 102-145), as a function of the
per-attempt outcomes: given the current attempt index and the number of
retries remaining, return the surfaced result, the number of attempts
consumed, and the list of delays waited (one retryDelay before each
retry, none before the first attempt or after the last failure). -/
def retryGo (outcomes : Nat → AttemptResult) (retryDelay : Nat) :
    Nat → Nat → Except String (Option Json) × Nat × List Nat
| attempt, 0 =>
  (match outcomes attempt with
   | AttemptResult.success v => (Except.ok v, 1, [])
   | AttemptResult.failure e => (Except.error e, 1, []))
| attempt, rem + 1 =>
  (match outcomes attempt with
   | AttemptResult.success v => (Except.ok v, 1, [])
   | AttemptResult.failure _ =>
     match retryGo outcomes retryDelay (attempt + 1) rem with
     | (res, n, ds) => (res, n + 1, retryDelay :: ds))

/-- sendRequest's loop entered at attempt 0 with maxRetries retries
remaining and the resolved options. -/
def sendRequestModel (outcomes : Nat → AttemptResult) (o : RequestOptions) :
    Except String (Option Json) × Nat × List Nat :=
  retryGo outcomes o.resolvedRetryDelay 0 o.resolvedMaxRetries

/-- Events that mutate the pending table. -/
inductive ClientEv where
  | register (caller : Nat)
  | response (r : McpResponse)
  | timeout (i : Int) (method : String)
  | teardown

/-- One event step; the third component lists the ids allocated. -/
def step (s : CState) : ClientEv → CState × List Settlement × List Int
| ClientEv.register c => ((registerPending s c).1, [], [(registerPending s c).2])
| ClientEv.response r => ((handleResponse s r).1, (handleResponse s r).2, [])
| ClientEv.timeout i m => ((handleTimeout s i m).1, (handleTimeout s i m).2, [])
| ClientEv.teardown => ((cleanup s).1, (cleanup s).2, [])

def runTrace (s : CState) : List ClientEv → CState × List Settlement × List Int
| [] => (s, [], [])
| e :: tr =>
  ((runTrace (step s e).1 tr).1,
   (step s e).2.1 ++ (runTrace (step s e).1 tr).2.1,
   (step s e).2.2 ++ (runTrace (step s e).1 tr).2.2)

/-- start (lines 37-84): spawning sets serverProcess and rl (up becomes
true) and installs the line handler; then sendRequest of the ping method
is issued and start resolves exactly when it does, rejecting with the
probe's error otherwise.  No branch of start performs cleanup.  The
probe argument abstracts the ping call's result and state effect. -/
def startClient (s : CState) (probe : CState → Except String (Option Json) × CState) :
    Except String Unit × CState :=
  match probe ⟨true, s.nextId, s.pending⟩ with
  | (Except.ok _, s2) => (Except.ok (), s2)
  | (Except.error e, s2) => (Except.error e, s2)

/-- Table well-formedness: distinct keys, all below the counter. -/
def goodState (s : CState) : Prop :=
  (pkeys s.pending).Nodup ∧ ∀ k, k ∈ pkeys s.pending → k < s.nextId

end Client

/-! Lemmas: decimal digits and numerals. -/

theorem digitChar_spec (d : Nat) (hd : d < 10) :
    isDigitC (digitChar d) = true ∧ digitVal (digitChar d) = d ∧
    digitChar d ≠ 'n' ∧ digitChar d ≠ 't' ∧ digitChar d ≠ 'f' ∧
    digitChar d ≠ '"' ∧ digitChar d ≠ '[' ∧ digitChar d ≠ '{' ∧
    digitChar d ≠ '-' ∧ digitChar d ≠ ']' ∧ digitChar d ≠ '}' := by
  interval_cases d <;> decide

theorem natDigits_ne_nil (n : Nat) : natDigits n ≠ [] := by
  by_cases h : n = 0
  · simp [natDigits, h]
  · simpa [natDigits, h, List.reverse_eq_nil_iff] using Nat.digits_ne_nil_iff_ne_zero.mpr h

theorem natDigits_lt (n : Nat) : ∀ d ∈ natDigits n, d < 10 := by
  intro d hd
  by_cases h : n = 0
  · simp [natDigits, h] at hd
    omega
  · simp [natDigits, h, List.mem_reverse] at hd
    exact Nat.digits_lt_base (by norm_num) hd

theorem printNat_ne_nil (n : Nat) : printNat n ≠ [] := by
  simp [printNat, List.map_eq_nil_iff, natDigits_ne_nil]

theorem takeWhile_append_all {α : Type} (p : α → Bool) :
    ∀ (xs ys : List α), (∀ x ∈ xs, p x = true) →
    (∀ y, ys.head? = some y → p y = false) →
    (xs ++ ys).takeWhile p = xs ∧ (xs ++ ys).dropWhile p = ys
| [], ys, _, hy => by
  cases ys with
  | nil => simp
  | cons y t =>
    have hpy := hy y rfl
    simp [List.takeWhile_cons, List.dropWhile_cons, hpy]
| x :: xs, ys, hx, hy => by
  have hpx := hx x (List.mem_cons_self x xs)
  have ih := takeWhile_append_all p xs ys (fun a ha => hx a (List.mem_cons_of_mem _ ha)) hy
  simp [List.takeWhile_cons, List.dropWhile_cons, hpx, ih.1, ih.2]

theorem foldl_base10_reverse : ∀ (l : List Nat) (a : Nat),
    l.reverse.foldl (fun x d => x * 10 + d) a = a * 10 ^ l.length + Nat.ofDigits 10 l
| [], a => by simp
| d :: t, a => by
  rw [List.reverse_cons, List.foldl_append, foldl_base10_reverse t a, Nat.ofDigits_cons]
  simp [List.foldl_cons]
  ring

theorem foldl_natDigits (n : Nat) : (natDigits n).foldl (fun a d => a * 10 + d) 0 = n := by
  by_cases h : n = 0
  · simp [natDigits, h]
  · have := foldl_base10_reverse (Nat.digits 10 n) 0
    rw [Nat.ofDigits_digits] at this
    simpa [natDigits, h] using this

theorem foldl_digitChar : ∀ (l : List Nat), (∀ d ∈ l, d < 10) → ∀ a : Nat,
    l.foldl (fun x d => x * 10 + digitVal (digitChar d)) a = l.foldl (fun x d => x * 10 + d) a
| [], _, a => rfl
| d :: t, h, a => by
  have hd := (digitChar_spec d (h d (List.mem_cons_self d t))).2.1
  simp only [List.foldl_cons, hd]
  exact foldl_digitChar t (fun x hx => h x (List.mem_cons_of_mem _ hx)) _

theorem parseNat_printNat (n : Nat) (rest : List Char) (h : headNotDig rest = true) :
    parseNat (printNat n ++ rest) = some (n, rest) := by
  have hall : ∀ c ∈ printNat n, isDigitC c = true := by
    intro c hc
    obtain ⟨d, hd, rfl⟩ := List.mem_map.mp hc
    exact (digitChar_spec d (natDigits_lt n d hd)).1
  have hrest : ∀ y, rest.head? = some y → isDigitC y = false := by
    intro y hy
    cases rest with
    | nil => cases hy
    | cons a t =>
      have ha : a = y := by injection hy
      subst ha
      simpa [headNotDig] using h
  obtain ⟨ht, hdw⟩ := takeWhile_append_all isDigitC (printNat n) rest hall hrest
  have hfold : (printNat n).foldl (fun a c => a * 10 + digitVal c) 0 = n := by
    rw [printNat, List.foldl_map, foldl_digitChar (natDigits n) (natDigits_lt n) 0,
        foldl_natDigits]
  rw [parseNat, ht, hdw, if_neg (printNat_ne_nil n), hfold]

/-! Lemmas: string-body escaping roundtrip. -/

theorem parseStr_quote (rest : List Char) : parseStr ( '"' :: rest) = some ([], rest) := by
  rw [parseStr.eq_def]
  rfl

theorem parseStr_backslash (e : Char) (cs : List Char) :
    parseStr ( '\\' :: e :: cs) =
      match parseStr cs with
      | none => none
      | some (s, r) => some (unescChar e :: s, r) := by
  rw [parseStr.eq_def]
  rfl

theorem parseStr_other (c : Char) (h1 : c ≠ '"') (h2 : c ≠ '\\') (cs : List Char) :
    parseStr (c :: cs) =
      match parseStr cs with
      | none => none
      | some (s, r) => some (c :: s, r) := by
  rw [parseStr.eq_def]
  dsimp only
  rw [if_neg h1, if_neg h2]

theorem parseStr_esc : ∀ (l rest : List Char),
    parseStr (escList l ++ '"' :: rest) = some (l, rest)
| [], rest => by
  rw [show escList [] ++ '"' :: rest = '"' :: rest by simp [escList]]
  exact parseStr_quote rest
| c :: t, rest => by
  by_cases h1 : c = '"' ∨ c = '\\'
  · have hne : unescChar c = c := by
      rcases h1 with rfl | rfl <;> decide
    have hesc : escChar c = [ '\\', c] := by simp [escChar, h1]
    rw [show escList (c :: t) ++ '"' :: rest = '\\' :: c :: (escList t ++ '"' :: rest) by
      simp [escList, hesc]]
    rw [parseStr_backslash, parseStr_esc t rest, hne]
  · push_neg at h1
    by_cases h2 : c = '\n'
    · subst h2
      have hesc : escChar '\n' = [ '\\', 'n'] := by decide
      rw [show escList ( '\n' :: t) ++ '"' :: rest = '\\' :: 'n' :: (escList t ++ '"' :: rest) by
        simp [escList, hesc]]
      rw [parseStr_backslash, parseStr_esc t rest]
      rfl
    · have hesc : escChar c = [c] := by simp [escChar, h1.1, h1.2, h2]
      rw [show escList (c :: t) ++ '"' :: rest = c :: (escList t ++ '"' :: rest) by
        simp [escList, hesc]]
      rw [parseStr_other c h1.1 h1.2, parseStr_esc t rest]

/-! Lemmas: unfolding the fuel-indexed parsers. -/

theorem parseVal_succ (f : Nat) :
    parseVal (f + 1) = parseValBody (parseElems f) (parseFields f) := by
  show (parsersAt (f + 1)).1 = _
  rw [parsersAt]
  rfl


theorem parseElems_succ (f : Nat) :
    parseElems (f + 1) = parseElemsBody (parseVal f) (parseElems f) := by
  show (parsersAt (f + 1)).2.1 = _
  rw [parsersAt]
  rfl


theorem parseFields_succ (f : Nat) :
    parseFields (f + 1) = parseFieldsBody (parseVal f) (parseFields f) := by
  show (parsersAt (f + 1)).2.2 = _
  rw [parsersAt]
  rfl


theorem pvb_null (pe : ParseFun (List Json)) (pf : ParseFun (List (String × Json)))
    (r : List Char) :
    parseValBody pe pf ( 'n' :: 'u' :: 'l' :: 'l' :: r) = some (Json.null, r) := rfl

theorem pvb_true (pe : ParseFun (List Json)) (pf : ParseFun (List (String × Json)))
    (r : List Char) :
    parseValBody pe pf ( 't' :: 'r' :: 'u' :: 'e' :: r) = some (Json.bool true, r) := rfl

theorem pvb_false (pe : ParseFun (List Json)) (pf : ParseFun (List (String × Json)))
    (r : List Char) :
    parseValBody pe pf ( 'f' :: 'a' :: 'l' :: 's' :: 'e' :: r) = some (Json.bool false, r) := rfl

theorem pvb_quote (pe : ParseFun (List Json)) (pf : ParseFun (List (String × Json)))
    (r : List Char) :
    parseValBody pe pf ( '"' :: r) =
      (parseStr r).map (fun p => (Json.str (String.mk p.1), p.2)) := rfl

theorem pvb_lbrack (pe : ParseFun (List Json)) (pf : ParseFun (List (String × Json)))
    (r : List Char) :
    parseValBody pe pf ( '[' :: r) =
      (pe r).map (fun p => (Json.arr p.1, p.2)) := rfl

theorem pvb_lbrace (pe : ParseFun (List Json)) (pf : ParseFun (List (String × Json)))
    (r : List Char) :
    parseValBody pe pf ( '{' :: r) =
      (pf r).map (fun p => (Json.obj p.1, p.2)) := rfl

theorem pvb_neg (pe : ParseFun (List Json)) (pf : ParseFun (List (String × Json)))
    (r : List Char) :
    parseValBody pe pf ( '-' :: r) =
      (parseNat r).map (fun p => (Json.num (-(p.1 : Int)), p.2)) := rfl

theorem pvb_digit (pe : ParseFun (List Json)) (pf : ParseFun (List (String × Json)))
    (c : Char) (r : List Char) (h0 : isDigitC c = true)
    (h1 : c ≠ 'n') (h2 : c ≠ 't') (h3 : c ≠ 'f') (h4 : c ≠ '"')
    (h5 : c ≠ '[') (h6 : c ≠ '{') (h7 : c ≠ '-') :
    parseValBody pe pf (c :: r) =
      (parseNat (c :: r)).map (fun p => (Json.num (p.1 : Int), p.2)) := by
  simp only [parseValBody]
  rw [if_neg h1, if_neg h2, if_neg h3, if_neg h4, if_neg h5, if_neg h6, if_neg h7, if_pos h0]

theorem peb_rbrack (pv : ParseFun Json) (pe : ParseFun (List Json)) (r : List Char) :
    parseElemsBody pv pe ( ']' :: r) = some ([], r) := rfl

theorem peb_go (pv : ParseFun Json) (pe : ParseFun (List Json)) (c : Char) (r : List Char)
    (h : c ≠ ']') :
    parseElemsBody pv pe (c :: r) =
      (pv (c :: r)).bind (fun p => afterElem pe p.1 p.2) := by
  simp only [parseElemsBody]
  rw [if_neg h]

theorem pfb_rbrace (pv : ParseFun Json) (pf : ParseFun (List (String × Json))) (r : List Char) :
    parseFieldsBody pv pf ( '}' :: r) = some ([], r) := rfl

theorem pfb_quote (pv : ParseFun Json) (pf : ParseFun (List (String × Json))) (r : List Char) :
    parseFieldsBody pv pf ( '"' :: r) =
      (parseStr r).bind (fun p => afterKey pv pf (String.mk p.1) p.2) := rfl

/-! Lemmas: sizes and printed heads. -/

theorem jsize_pos (v : Json) : 1 ≤ jsize v := by
  cases v <;> simp [jsize]

theorem jsizeL_pos (xs : List Json) : 1 ≤ jsizeL xs := by
  cases xs with
  | nil => simp [jsizeL]
  | cons x t =>
    have := jsize_pos x
    simp [jsizeL]
    omega

theorem jsizeF_pos (fs : List (String × Json)) : 1 ≤ jsizeF fs := by
  cases fs with
  | nil => simp [jsizeF]
  | cons kv t =>
    obtain ⟨k, v⟩ := kv
    have := jsize_pos v
    simp [jsizeF]
    omega

theorem string_mk_data (s : String) : String.mk s.data = s := by
  rcases s with ⟨d⟩
  rfl

theorem printVal_head (v : Json) : ∃ c t, printVal v = c :: t ∧ c ≠ ']' ∧ c ≠ '}' := by
  cases v with
  | null => exact ⟨ 'n', [ 'u', 'l', 'l' ], by simp [printVal], by decide, by decide⟩
  | bool b =>
    cases b
    · exact ⟨ 'f', [ 'a', 'l', 's', 'e' ], by simp [printVal], by decide, by decide⟩
    · exact ⟨ 't', [ 'r', 'u', 'e' ], by simp [printVal], by decide, by decide⟩
  | num n =>
    by_cases hn : n < 0
    · exact ⟨ '-', printNat n.natAbs, by simp [printVal, printInt, hn], by decide, by decide⟩
    · obtain ⟨d, ds, hds⟩ := List.exists_cons_of_ne_nil (natDigits_ne_nil n.toNat)
      obtain ⟨hA, hB, h1, h2, h3, h4, h5, h6, h7, h8, h9⟩ :=
        digitChar_spec d (natDigits_lt _ d (by rw [hds]; exact List.mem_cons_self _ _))
      exact ⟨digitChar d, ds.map digitChar,
        by simp [printVal, printInt, hn, printNat, hds], h8, h9⟩
  | str s =>
    exact ⟨ '"', escList s.data ++ [ '"' ], by simp [printVal, printStrChars], by decide, by decide⟩
  | arr xs =>
    exact ⟨ '[', printList xs ++ [ ']' ], by simp [printVal], by decide, by decide⟩
  | obj fs =>
    exact ⟨ '{', printFields fs ++ [ '}' ], by simp [printVal], by decide, by decide⟩

/-! The printer-parser roundtrip, by induction on fuel. -/

theorem parse_print_roundtrip : ∀ f : Nat,
    (∀ v rest, jsize v < f → headNotDig rest = true →
       parseVal f (printVal v ++ rest) = some (v, rest))
  ∧ (∀ xs rest, jsizeL xs < f →
       parseElems f (printList xs ++ ']' :: rest) = some (xs, rest))
  ∧ (∀ fs rest, jsizeF fs < f →
       parseFields f (printFields fs ++ '}' :: rest) = some (fs, rest)) := by
  intro f
  induction f with
  | zero =>
    exact ⟨fun v rest h _ => absurd h (by omega),
           fun xs rest h => absurd h (by omega),
           fun fs rest h => absurd h (by omega)⟩
  | succ f ih =>
    obtain ⟨ihP, ihQ, ihR⟩ := ih
    refine ⟨?_, ?_, ?_⟩
    · intro v rest hs hd
      rw [parseVal_succ]
      cases v with
      | null =>
        rw [show printVal Json.null ++ rest = 'n' :: 'u' :: 'l' :: 'l' :: rest by
          simp [printVal]]
        exact pvb_null _ _ rest
      | bool b =>
        cases b
        · rw [show printVal (Json.bool false) ++ rest = 'f' :: 'a' :: 'l' :: 's' :: 'e' :: rest by
            simp [printVal]]
          exact pvb_false _ _ rest
        · rw [show printVal (Json.bool true) ++ rest = 't' :: 'r' :: 'u' :: 'e' :: rest by
            simp [printVal]]
          exact pvb_true _ _ rest
      | num n =>
        by_cases hn : n < 0
        · rw [show printVal (Json.num n) ++ rest = '-' :: (printNat n.natAbs ++ rest) by
            simp [printVal, printInt, hn]]
          rw [pvb_neg, parseNat_printNat n.natAbs rest hd]
          show some (Json.num (-(n.natAbs : Int)), rest) = some (Json.num n, rest)
          have hval : -((n.natAbs : Int)) = n := by omega
          rw [hval]
        · obtain ⟨d, ds, hds⟩ := List.exists_cons_of_ne_nil (natDigits_ne_nil n.toNat)
          obtain ⟨hA, hB, h1, h2, h3, h4, h5, h6, h7, h8, h9⟩ :=
            digitChar_spec d (natDigits_lt _ d (by rw [hds]; exact List.mem_cons_self _ _))
          rw [show printVal (Json.num n) ++ rest = digitChar d :: (ds.map digitChar ++ rest) by
            simp [printVal, printInt, hn, printNat, hds]]
          rw [pvb_digit _ _ _ _ hA h1 h2 h3 h4 h5 h6 h7]
          rw [show digitChar d :: (ds.map digitChar ++ rest) = printNat n.toNat ++ rest by
            simp [printNat, hds]]
          rw [parseNat_printNat _ rest hd]
          show some (Json.num ((n.toNat : Int)), rest) = some (Json.num n, rest)
          have hval : ((n.toNat : Int)) = n := by omega
          rw [hval]
      | str s =>
        rw [show printVal (Json.str s) ++ rest = '"' :: (escList s.data ++ '"' :: rest) by
          simp [printVal, printStrChars]]
        rw [pvb_quote, parseStr_esc s.data rest]
        show some (Json.str (String.mk s.data), rest) = some (Json.str s, rest)
        rw [string_mk_data]
      | arr xs =>
        have hsz : jsizeL xs < f := by
          have he : jsize (Json.arr xs) = 1 + jsizeL xs := by simp [jsize]
          omega
        rw [show printVal (Json.arr xs) ++ rest = '[' :: (printList xs ++ ']' :: rest) by
          simp [printVal]]
        rw [pvb_lbrack, ihQ xs rest hsz]
        rfl
      | obj fs =>
        have hsz : jsizeF fs < f := by
          have he : jsize (Json.obj fs) = 1 + jsizeF fs := by simp [jsize]
          omega
        rw [show printVal (Json.obj fs) ++ rest = '{' :: (printFields fs ++ '}' :: rest) by
          simp [printVal]]
        rw [pvb_lbrace, ihR fs rest hsz]
        rfl
    · intro xs rest hs
      rw [parseElems_succ]
      cases xs with
      | nil =>
        rw [show printList [] ++ ']' :: rest = ']' :: rest by simp [printList]]
        exact peb_rbrack _ _ rest
      | cons x t =>
        obtain ⟨c0, t0, hc0, hcne, -⟩ := printVal_head x
        cases t with
        | nil =>
          have hsx : jsize x < f := by
            have e1 : jsizeL [x] = jsize x + jsizeL ([] : List Json) := by simp [jsizeL]
            have e2 : jsizeL ([] : List Json) = 1 := by simp [jsizeL]
            omega
          rw [show printList [x] ++ ']' :: rest = c0 :: (t0 ++ ']' :: rest) by
            simp [printList, hc0]]
          rw [peb_go _ _ _ _ hcne]
          rw [show c0 :: (t0 ++ ']' :: rest) = printVal x ++ ']' :: rest by simp [hc0]]
          rw [ihP x (']' :: rest) hsx (by rfl)]
          rfl
        | cons y t2 =>
          have hsz : jsize x < f ∧ jsizeL (y :: t2) < f := by
            have e1 : jsizeL (x :: y :: t2) = jsize x + jsizeL (y :: t2) := by simp [jsizeL]
            have e2 := jsize_pos x
            have e3 := jsizeL_pos (y :: t2)
            omega
          rw [show printList (x :: y :: t2) ++ ']' :: rest
              = c0 :: (t0 ++ ',' :: (printList (y :: t2) ++ ']' :: rest)) by
            simp [printList, hc0]]
          rw [peb_go _ _ _ _ hcne]
          rw [show c0 :: (t0 ++ ',' :: (printList (y :: t2) ++ ']' :: rest))
              = printVal x ++ ',' :: (printList (y :: t2) ++ ']' :: rest) by simp [hc0]]
          rw [ihP x _ hsz.1 (by rfl)]
          show (parseElems f (printList (y :: t2) ++ ']' :: rest)).map
              (fun p => (x :: p.1, p.2)) = some (x :: y :: t2, rest)
          rw [ihQ (y :: t2) rest hsz.2]
          rfl
    · intro fs rest hs
      rw [parseFields_succ]
      cases fs with
      | nil =>
        rw [show printFields [] ++ '}' :: rest = '}' :: rest by simp [printFields]]
        exact pfb_rbrace _ _ rest
      | cons kv t =>
        obtain ⟨k, v⟩ := kv
        cases t with
        | nil =>
          have hsv : jsize v < f := by
            have e1 : jsizeF [(k, v)] = jsize v + jsizeF ([] : List (String × Json)) := by
              simp [jsizeF]
            have e2 : jsizeF ([] : List (String × Json)) = 1 := by simp [jsizeF]
            omega
          rw [show printFields [(k, v)] ++ '}' :: rest
              = '"' :: (escList k.data ++ '"' :: (':' :: (printVal v ++ '}' :: rest))) by
            simp [printFields, printStrChars]]
          rw [pfb_quote, parseStr_esc k.data]
          show (parseVal f (printVal v ++ '}' :: rest)).bind
              (fun q => afterField (parseFields f) (String.mk k.data) q.1 q.2)
              = some ([(k, v)], rest)
          rw [ihP v ('}' :: rest) hsv (by rfl), string_mk_data]
          rfl
        | cons kv2 t2 =>
          have hsz : jsize v < f ∧ jsizeF (kv2 :: t2) < f := by
            have e1 : jsizeF ((k, v) :: kv2 :: t2) = jsize v + jsizeF (kv2 :: t2) := by
              simp [jsizeF]
            have e2 := jsize_pos v
            have e3 := jsizeF_pos (kv2 :: t2)
            omega
          rw [show printFields ((k, v) :: kv2 :: t2) ++ '}' :: rest
              = '"' :: (escList k.data ++ '"' ::
                  (':' :: (printVal v ++ ',' :: (printFields (kv2 :: t2) ++ '}' :: rest)))) by
            simp [printFields, printStrChars]]
          rw [pfb_quote, parseStr_esc k.data]
          show (parseVal f (printVal v ++ ',' :: (printFields (kv2 :: t2) ++ '}' :: rest))).bind
              (fun q => afterField (parseFields f) (String.mk k.data) q.1 q.2)
              = some ((k, v) :: kv2 :: t2, rest)
          rw [ihP v _ hsz.1 (by rfl), string_mk_data]
          show (parseFields f (printFields (kv2 :: t2) ++ '}' :: rest)).map
              (fun p => ((k, v) :: p.1, p.2)) = some ((k, v) :: kv2 :: t2, rest)
          rw [ihR (kv2 :: t2) rest hsz.2]
          rfl

/-! Fuel sufficiency: the node count of a value is bounded by the
length of its printed form. -/

theorem jsize_le_length : ∀ f : Nat,
    (∀ v, jsize v ≤ f → jsize v ≤ (printVal v).length)
  ∧ (∀ xs, jsizeL xs ≤ f → jsizeL xs ≤ (printList xs).length + 1)
  ∧ (∀ fs, jsizeF fs ≤ f → jsizeF fs ≤ (printFields fs).length + 1) := by
  intro f
  induction f with
  | zero =>
    refine ⟨fun v h => ?_, fun xs h => ?_, fun fs h => ?_⟩
    · have := jsize_pos v
      omega
    · have := jsizeL_pos xs
      omega
    · have := jsizeF_pos fs
      omega
  | succ f ih =>
    obtain ⟨ihP, ihQ, ihR⟩ := ih
    refine ⟨?_, ?_, ?_⟩
    · intro v hv
      cases v with
      | null => simp [jsize, printVal]
      | bool b => cases b <;> simp [jsize, printVal]
      | num n =>
        have h1 : (printInt n).length ≥ 1 := by
          by_cases hn : n < 0
          · simp [printInt, hn]
          · simp [printInt, hn]
            have := printNat_ne_nil n.toNat
            cases hpn : printNat n.toNat with
            | nil => exact absurd hpn this
            | cons a t => simp [hpn]
        simp [jsize, printVal]
        omega
      | str s =>
        simp [jsize, printVal, printStrChars]
      | arr xs =>
        have hs : jsizeL xs ≤ f := by
          have : jsize (Json.arr xs) = 1 + jsizeL xs := by simp [jsize]
          omega
        have := ihQ xs hs
        have he : jsize (Json.arr xs) = 1 + jsizeL xs := by simp [jsize]
        simp [printVal]
        omega
      | obj fs =>
        have hs : jsizeF fs ≤ f := by
          have : jsize (Json.obj fs) = 1 + jsizeF fs := by simp [jsize]
          omega
        have := ihR fs hs
        have he : jsize (Json.obj fs) = 1 + jsizeF fs := by simp [jsize]
        simp [printVal]
        omega
    · intro xs hxs
      cases xs with
      | nil => simp [jsizeL, printList]
      | cons x t =>
        cases t with
        | nil =>
          have hx : jsize x ≤ f := by
            have e1 : jsizeL [x] = jsize x + jsizeL ([] : List Json) := by simp [jsizeL]
            have e2 : jsizeL ([] : List Json) = 1 := by simp [jsizeL]
            omega
          have := ihP x hx
          have e1 : jsizeL [x] = jsize x + jsizeL ([] : List Json) := by simp [jsizeL]
          have e2 : jsizeL ([] : List Json) = 1 := by simp [jsizeL]
          simp [printList]
          omega
        | cons y t2 =>
          have e1 : jsizeL (x :: y :: t2) = jsize x + jsizeL (y :: t2) := by simp [jsizeL]
          have e2 := jsize_pos x
          have e3 := jsizeL_pos (y :: t2)
          have hx : jsize x ≤ f := by omega
          have hyt : jsizeL (y :: t2) ≤ f := by omega
          have i1 := ihP x hx
          have i2 := ihQ (y :: t2) hyt
          simp [printList]
          omega
    · intro fs hfs
      cases fs with
      | nil => simp [jsizeF, printFields]
      | cons kv t =>
        obtain ⟨k, v⟩ := kv
        cases t with
        | nil =>
          have e1 : jsizeF [(k, v)] = jsize v + jsizeF ([] : List (String × Json)) := by
            simp [jsizeF]
          have e2 : jsizeF ([] : List (String × Json)) = 1 := by simp [jsizeF]
          have hv : jsize v ≤ f := by omega
          have := ihP v hv
          simp [printFields, printStrChars]
          omega
        | cons kv2 t2 =>
          have e1 : jsizeF ((k, v) :: kv2 :: t2) = jsize v + jsizeF (kv2 :: t2) := by
            simp [jsizeF]
          have e2 := jsize_pos v
          have e3 := jsizeF_pos (kv2 :: t2)
          have hv : jsize v ≤ f := by omega
          have ht : jsizeF (kv2 :: t2) ≤ f := by omega
          have i1 := ihP v hv
          have i2 := ihR (kv2 :: t2) ht
          simp [printFields, printStrChars]
          omega

/-- Parsing the newline-terminated printed form of any JSON value with
the standard fuel recovers the value. -/
theorem parseJsonChars_print (v : Json) : parseJsonChars (printVal v ++ [ '\n' ]) = some v := by
  have hlen : jsize v ≤ (printVal v).length := (jsize_le_length (jsize v)).1 v (le_refl _)
  have hfuel : jsize v < (printVal v ++ [ '\n' ]).length + 1 := by
    simp [List.length_append]
    omega
  have hrt := (parse_print_roundtrip ((printVal v ++ [ '\n' ]).length + 1)).1 v [ '\n' ]
    hfuel (by rfl)
  rw [parseJsonChars, hrt]
  rfl

/-! Lemmas: the pending table. -/

namespace Client

theorem pkeys_nil : pkeys [] = [] := rfl

theorem pkeys_cons (k : Int) (v : Nat) (t : List (Int × Nat)) :
    pkeys ((k, v) :: t) = k :: pkeys t := rfl

theorem mem_pkeys_of_mem : ∀ (l : List (Int × Nat)) (i : Int) (c : Nat),
    (i, c) ∈ l → i ∈ pkeys l
| (k, v) :: t, i, c, hm => by
  rw [pkeys_cons]
  rcases List.mem_cons.mp hm with he | hmt
  · injection he with h1 _
    subst h1
    exact List.mem_cons_self _ _
  · exact List.mem_cons_of_mem _ (mem_pkeys_of_mem t i c hmt)

theorem plook_none_iff : ∀ (l : List (Int × Nat)) (i : Int),
    plook l i = none ↔ i ∉ pkeys l
| [], i => by simp [plook, pkeys]
| (k, v) :: t, i => by
  rw [pkeys_cons]
  by_cases h : k = i
  · subst h
    simp [plook]
  · rw [plook, if_neg h, plook_none_iff t i, List.mem_cons]
    constructor
    · intro hnt hor
      rcases hor with he | hmem
      · exact h he.symm
      · exact hnt hmem
    · intro hno hmem
      exact hno (Or.inr hmem)

theorem plook_eq_some_of_mem : ∀ (l : List (Int × Nat)) (i : Int) (c : Nat),
    (pkeys l).Nodup → (i, c) ∈ l → plook l i = some c
| [], i, c, _, hm => absurd hm (by simp)
| (k, v) :: t, i, c, hn, hm => by
  rw [pkeys_cons] at hn
  obtain ⟨hn1, hn2⟩ := List.nodup_cons.mp hn
  rcases List.mem_cons.mp hm with he | hmt
  · injection he with h1 h2
    subst h1
    subst h2
    simp [plook]
  · have hki : k ≠ i := by
      intro he2
      subst he2
      exact hn1 (mem_pkeys_of_mem t k c hmt)
    rw [plook, if_neg hki]
    exact plook_eq_some_of_mem t i c hn2 hmt

theorem mem_of_plook_eq_some : ∀ (l : List (Int × Nat)) (i : Int) (c : Nat),
    plook l i = some c → (i, c) ∈ l
| [], i, c, h => by simp [plook] at h
| (k, v) :: t, i, c, h => by
  by_cases hk : k = i
  · subst hk
    rw [plook, if_pos rfl] at h
    injection h with h2
    subst h2
    exact List.mem_cons_self _ _
  · rw [plook, if_neg hk] at h
    exact List.mem_cons_of_mem _ (mem_of_plook_eq_some t i c h)

theorem mem_pkeys_of_plook (l : List (Int × Nat)) (i : Int) (c : Nat)
    (h : plook l i = some c) : i ∈ pkeys l :=
  mem_pkeys_of_mem l i c (mem_of_plook_eq_some l i c h)

theorem mem_perase_of_ne : ∀ (l : List (Int × Nat)) (i j : Int) (c : Nat),
    (j, c) ∈ l → j ≠ i → (j, c) ∈ perase l i
| [], i, j, c, hm, _ => absurd hm (by simp)
| (k, v) :: t, i, j, c, hm, hne => by
  by_cases hk : k = i
  · subst hk
    rw [perase, if_pos rfl]
    rcases List.mem_cons.mp hm with he | hmt
    · injection he with h1 _
      exact absurd h1 hne
    · exact hmt
  · rw [perase, if_neg hk]
    rcases List.mem_cons.mp hm with he | hmt
    · rw [he]
      exact List.mem_cons_self _ _
    · exact List.mem_cons_of_mem _ (mem_perase_of_ne t i j c hmt hne)

theorem pkeys_perase_subset : ∀ (l : List (Int × Nat)) (i : Int),
    ∀ j ∈ pkeys (perase l i), j ∈ pkeys l
| [], i, j, h => by simpa [perase] using h
| (k, v) :: t, i, j, h => by
  rw [pkeys_cons]
  by_cases hk : k = i
  · subst hk
    rw [perase, if_pos rfl] at h
    exact List.mem_cons_of_mem _ h
  · rw [perase, if_neg hk, pkeys_cons] at h
    rcases List.mem_cons.mp h with he | hmem
    · rw [he]
      exact List.mem_cons_self _ _
    · exact List.mem_cons_of_mem _ (pkeys_perase_subset t i j hmem)

theorem nodup_pkeys_perase : ∀ (l : List (Int × Nat)) (i : Int),
    (pkeys l).Nodup → (pkeys (perase l i)).Nodup
| [], i, _ => by simp [perase, pkeys]
| (k, v) :: t, i, hn => by
  rw [pkeys_cons] at hn
  obtain ⟨hn1, hn2⟩ := List.nodup_cons.mp hn
  by_cases hk : k = i
  · subst hk
    rw [perase, if_pos rfl]
    exact hn2
  · rw [perase, if_neg hk, pkeys_cons]
    refine List.nodup_cons.mpr ⟨?_, nodup_pkeys_perase t i hn2⟩
    intro hmem
    exact hn1 (pkeys_perase_subset t i k hmem)

theorem plook_perase_self : ∀ (l : List (Int × Nat)) (i : Int),
    (pkeys l).Nodup → plook (perase l i) i = none
| [], i, _ => by simp [perase, plook]
| (k, v) :: t, i, hn => by
  rw [pkeys_cons] at hn
  obtain ⟨hn1, hn2⟩ := List.nodup_cons.mp hn
  by_cases hk : k = i
  · subst hk
    rw [perase, if_pos rfl, plook_none_iff]
    exact hn1
  · rw [perase, if_neg hk, plook, if_neg hk]
    exact plook_perase_self t i hn2

end Client

/-! Lemmas: single steps of the client. -/

namespace Client

theorem handleResponse_found (s : CState) (r : McpResponse) (i : Int) (c : Nat)
    (hid : r.id = some i) (hp : plook s.pending i = some c) :
    handleResponse s r = (⟨s.up, s.nextId, perase s.pending i⟩,
      [⟨i, c, outcomeOf r, SettlePath.byResponse⟩]) := by
  simp [handleResponse, hid, hp]

theorem handleResponse_miss_id (s : CState) (r : McpResponse) (hid : r.id = none) :
    handleResponse s r = (s, []) := by
  simp [handleResponse, hid]

theorem handleResponse_miss (s : CState) (r : McpResponse) (i : Int)
    (hid : r.id = some i) (hp : plook s.pending i = none) :
    handleResponse s r = (s, []) := by
  simp [handleResponse, hid, hp]

theorem handleTimeout_found (s : CState) (i : Int) (m : String) (c : Nat)
    (hp : plook s.pending i = some c) :
    handleTimeout s i m = (⟨s.up, s.nextId, perase s.pending i⟩,
      [⟨i, c, Outcome.rejected (timeoutMessage m), SettlePath.byTimeout⟩]) := by
  simp [handleTimeout, hp]

theorem handleTimeout_miss (s : CState) (i : Int) (m : String)
    (hp : plook s.pending i = none) :
    handleTimeout s i m = (s, []) := by
  simp [handleTimeout, hp]

theorem runTrace_nil (s : CState) : runTrace s [] = (s, [], []) := rfl

theorem runTrace_cons (s : CState) (e : ClientEv) (tr : List ClientEv) :
    runTrace s (e :: tr) =
      ((runTrace (step s e).1 tr).1,
       (step s e).2.1 ++ (runTrace (step s e).1 tr).2.1,
       (step s e).2.2 ++ (runTrace (step s e).1 tr).2.2) := by
  rw [runTrace]

theorem step_register (s : CState) (c : Nat) :
    step s (ClientEv.register c) = ((registerPending s c).1, [], [(registerPending s c).2]) := rfl

theorem step_response (s : CState) (r : McpResponse) :
    step s (ClientEv.response r) = ((handleResponse s r).1, (handleResponse s r).2, []) := rfl

theorem step_timeout (s : CState) (i : Int) (m : String) :
    step s (ClientEv.timeout i m) = ((handleTimeout s i m).1, (handleTimeout s i m).2, []) := rfl

theorem step_teardown (s : CState) :
    step s ClientEv.teardown = ((cleanup s).1, (cleanup s).2, []) := rfl

end Client

open Client

/-- C1: on a started client, a response line is matched to a waiter
solely by its id field: whatever the order of the response list, the
caller registered under id i receives exactly the outcome of the unique
response bearing id i, independent of that response's arrival
position. -/
theorem C1_response_matched_by_id :
    ∀ (rs : List McpResponse) (s : CState) (i : Int) (c : Nat) (r : McpResponse),
      (pkeys s.pending).Nodup →
      (i, c) ∈ s.pending →
      r ∈ rs →
      r.id = some i →
      (∀ r2 ∈ rs, r2.id = some i → r2 = r) →
      (⟨i, c, outcomeOf r, SettlePath.byResponse⟩ : Settlement)
        ∈ (runTrace s (rs.map ClientEv.response)).2.1 := by
  intro rs
  induction rs with
  | nil =>
    intro s i c r _ _ hmem _ _
    exact absurd hmem (by simp)
  | cons r0 rt ih =>
    intro s i c r hnod hpend hmem hid huniq
    rw [List.map_cons, runTrace_cons, step_response]
    by_cases h0 : r0.id = some i
    · have hr0 : r0 = r := huniq r0 (List.mem_cons_self _ _) h0
      subst hr0
      rw [handleResponse_found s r0 i c h0 (plook_eq_some_of_mem _ _ _ hnod hpend)]
      exact List.mem_append_left _ (List.mem_singleton.mpr rfl)
    · have hrt : r ∈ rt := by
        rcases List.mem_cons.mp hmem with he | hmt
        · exact absurd (he ▸ hid) h0
        · exact hmt
      have huniq2 : ∀ r2 ∈ rt, r2.id = some i → r2 = r :=
        fun r2 h2 hi2 => huniq r2 (List.mem_cons_of_mem _ h2) hi2
      cases hcase : r0.id with
      | none =>
        rw [handleResponse_miss_id s r0 hcase]
        exact List.mem_append_right _ (ih s i c r hnod hpend hrt hid huniq2)
      | some j =>
        have hji : j ≠ i := fun he => h0 (he ▸ hcase)
        cases hpj : plook s.pending j with
        | none =>
          rw [handleResponse_miss s r0 j hcase hpj]
          exact List.mem_append_right _ (ih s i c r hnod hpend hrt hid huniq2)
        | some c2 =>
          rw [handleResponse_found s r0 j c2 hcase hpj]
          refine List.mem_append_right _ (ih _ i c r ?_ ?_ hrt hid huniq2)
          · exact nodup_pkeys_perase _ _ hnod
          · exact mem_perase_of_ne _ _ _ _ hpend (fun he => hji he.symm)

/-- C1 witness: two pending calls, responses delivered out of issuance
order; the caller registered under id 1 receives the outcome of the
response bearing id 1. -/
theorem C1_response_matched_by_id_witness :
    (⟨1, 100, outcomeOf ⟨some 1, some (Json.num 10), none, none⟩, SettlePath.byResponse⟩ : Settlement)
      ∈ (runTrace ⟨true, 3, [(1, 100), (2, 200)]⟩
          (([⟨some 2, some (Json.num 20), none, none⟩,
             ⟨some 1, some (Json.num 10), none, none⟩] : List McpResponse).map
            ClientEv.response)).2.1 :=
  C1_response_matched_by_id
    [⟨some 2, some (Json.num 20), none, none⟩, ⟨some 1, some (Json.num 10), none, none⟩]
    ⟨true, 3, [(1, 100), (2, 200)]⟩ 1 100 ⟨some 1, some (Json.num 10), none, none⟩
    (by decide)
    (by decide)
    (List.mem_cons_of_mem _ (List.mem_cons_self _ _))
    rfl
    (by
      intro r2 h2 hi2
      rcases List.mem_cons.mp h2 with he | h3
      · subst he
        exact absurd (Option.some.inj hi2) (by decide)
      · rcases List.mem_cons.mp h3 with he | h4
        · exact he
        · exact absurd h4 (by simp))

/-- C4 counterexample: after stop(), a newly attempted call is rejected
by the not-started guard with the Server-not-started message, which is a
different error from ConnectionClosed; this refutes the claim that every
call attempted after stop() fails with ConnectionClosed. -/
theorem C4_stop_counterexample :
    sendRequestGuard (cleanup ⟨true, 5, [(1, 10)]⟩).1 = Except.error notStartedMsg
    ∧ notStartedMsg ≠ connectionClosedMsg :=
  ⟨rfl, by decide⟩

/-- C4 amended: stop() terminates the subprocess and reader, fails every
currently pending request with the ConnectionClosed error, and a second
stop() is a no-op; but a call attempted after stop() fails with the
Server-not-started guard error, not with ConnectionClosed. -/
theorem C4_stop_idempotent_amended :
    (∀ s : CState, (cleanup s).1.up = false ∧ (cleanup s).1.pending = [])
  ∧ (∀ (s : CState) (i : Int) (c : Nat), (i, c) ∈ s.pending →
      (⟨i, c, Outcome.rejected connectionClosedMsg, SettlePath.byTeardown⟩ : Settlement)
        ∈ (cleanup s).2)
  ∧ (∀ s : CState, cleanup (cleanup s).1 = ((cleanup s).1, []))
  ∧ (∀ s : CState, s.up = false → sendRequestGuard s = Except.error notStartedMsg) := by
  refine ⟨fun s => ⟨rfl, rfl⟩, ?_, fun s => rfl, ?_⟩
  · intro s i c hm
    exact List.mem_map_of_mem _ hm
  · intro s h
    simp [sendRequestGuard, h]

/-- C4 witness: a pending request is rejected with ConnectionClosed by
stop(), and a call on a stopped client hits the not-started guard. -/
theorem C4_stop_idempotent_amended_witness :
    ((⟨1, 10, Outcome.rejected connectionClosedMsg, SettlePath.byTeardown⟩ : Settlement)
      ∈ (cleanup ⟨true, 5, [(1, 10)]⟩).2)
    ∧ sendRequestGuard ⟨false, 5, []⟩ = Except.error notStartedMsg :=
  ⟨C4_stop_idempotent_amended.2.1 ⟨true, 5, [(1, 10)]⟩ 1 10 (by decide),
   C4_stop_idempotent_amended.2.2.2 ⟨false, 5, []⟩ rfl⟩

/-- C5 counterexample: a well-formed response line bearing an id with no
pending entry leaves the state exactly unchanged and settles no waiter,
but, contrary to the claim, it is not logged: the emitted log list is
empty (only the JSON.parse catch handler ever logs). -/
theorem C5_unknown_id_counterexample :
    handleLine ⟨true, 5, [(2, 20)]⟩ ("\x7b\"id\":1\x7d".data)
      = (⟨true, 5, [(2, 20)]⟩, [], []) := rfl

/-- C5 amended: a response line whose id has no pending entry is
discarded silently: the state is exactly unchanged (every other pending
request untouched, nothing added or removed), no waiter is settled, and
nothing is logged; it is not an error condition. -/
theorem C5_unknown_id_amended :
    ∀ (s : CState) (line : List Char) (j : Json),
      parseJsonChars line = some j →
      (∀ i, (decodeResponse j).id = some i → plook s.pending i = none) →
      handleLine s line = (s, [], []) := by
  intro s line j hp hmiss
  cases hid : (decodeResponse j).id with
  | none => simp [handleLine, hp, handleResponse_miss_id s _ hid]
  | some i => simp [handleLine, hp, handleResponse_miss s _ i hid (hmiss i hid)]

/-- C5 witness: a parsed response with unknown id 2 against a table
holding only id 3. -/
theorem C5_unknown_id_amended_witness :
    handleLine ⟨true, 7, [(3, 30)]⟩ ("\x7b\"id\":2,\"result\":null\x7d".data)
      = (⟨true, 7, [(3, 30)]⟩, [], []) :=
  C5_unknown_id_amended ⟨true, 7, [(3, 30)]⟩ _
    (Json.obj [("id", Json.num 2), ("result", Json.null)]) rfl
    (by
      intro i hi
      have h1 : some (2 : Int) = some i := hi
      injection h1 with h2
      subst h2
      rfl)

/-- C7 counterexample: when the liveness probe fails, start surfaces the
probe's error, but the connection does not transition to Closed: the
subprocess and reader stay live (up = true), refuting the claimed
transition directly to Closed. -/
theorem C7_start_counterexample :
    startClient initState (fun t => (Except.error (timeoutMessage pingMethod), t))
      = (Except.error (timeoutMessage pingMethod), ⟨true, 1, []⟩)
    ∧ (⟨true, 1, []⟩ : CState).up = true := ⟨rfl, rfl⟩

/-- C7 amended: start completes successfully only after the reserved
zero-argument ping probe returns without error, and a probe failure is
surfaced as start's own error; but on probe failure the connection does
not transition to Closed: provided the probe leaves the liveness fields
as it found them (sendRequest never clears them), the spawned process
and reader remain up.  The probe frame is the ping request with the
params field omitted. -/
theorem C7_start_probe_amended :
    (∀ (s : CState) (probe : CState → Except String (Option Json) × CState),
       (startClient s probe).1 = Except.ok () →
       ∃ w, (probe ⟨true, s.nextId, s.pending⟩).1 = Except.ok w)
  ∧ (∀ (s : CState) (probe : CState → Except String (Option Json) × CState) (e : String),
       (probe ⟨true, s.nextId, s.pending⟩).1 = Except.error e →
       (startClient s probe).1 = Except.error e)
  ∧ (∀ (s : CState) (probe : CState → Except String (Option Json) × CState),
       (∀ t, ((probe t).2).up = t.up) →
       ((startClient s probe).2).up = true)
  ∧ (∀ i : Int, reqToJson ⟨i, pingMethod, none⟩
       = Json.obj [("id", Json.num i), ("method", Json.str pingMethod)]) := by
  refine ⟨?_, ?_, ?_, fun i => rfl⟩
  · intro s probe h
    cases hpr : probe ⟨true, s.nextId, s.pending⟩ with
    | mk res s2 =>
      cases res with
      | ok w => exact ⟨w, rfl⟩
      | error e =>
        simp [startClient, hpr] at h
  · intro s probe e h
    cases hpr : probe ⟨true, s.nextId, s.pending⟩ with
    | mk res s2 =>
      have hres : res = Except.error e := by
        rw [hpr] at h
        exact h
      subst hres
      simp [startClient, hpr]
  · intro s probe hup
    cases hpr : probe ⟨true, s.nextId, s.pending⟩ with
    | mk res s2 =>
      have h2 : s2.up = true := by
        have hu := hup ⟨true, s.nextId, s.pending⟩
        rw [hpr] at hu
        exact hu
      cases res with
      | ok w =>
        have he : startClient s probe = (Except.ok (), s2) := by simp [startClient, hpr]
        rw [he]
        exact h2
      | error e =>
        have he : startClient s probe = (Except.error e, s2) := by simp [startClient, hpr]
        rw [he]
        exact h2

/-- C7 witness: a succeeding probe lets start succeed; a failing probe's
error is surfaced while the connection stays up. -/
theorem C7_start_probe_amended_witness :
    (∃ w, ((fun t : CState =>
         ((Except.ok (none : Option Json) : Except String (Option Json)), t)) (⟨true, 1, []⟩ : CState)).1
       = Except.ok w)
    ∧ (startClient initState (fun t => (Except.error "boom", t))).1 = Except.error "boom"
    ∧ ((startClient initState (fun t => (Except.error "boom", t))).2).up = true :=
  ⟨C7_start_probe_amended.1 initState _ rfl,
   C7_start_probe_amended.2.1 initState _ "boom" rfl,
   C7_start_probe_amended.2.2.1 initState _ (fun _ => rfl)⟩

/-- C8: a line that cannot be parsed as JSON is reported through the
catch handler's log, the reading loop is not terminated, the connection
fields are untouched, and no pending request is affected: the state is
returned exactly unchanged with no settlements. -/
theorem C8_parse_error_nonfatal :
    ∀ (s : CState) (line : List Char),
      parseJsonChars line = none →
      handleLine s line = (s, [], [parseErrorLog]) := by
  intro s line h
  simp [handleLine, h]

/-- C8 witness: an unparseable line against a live client with one
pending request. -/
theorem C8_parse_error_nonfatal_witness :
    handleLine ⟨true, 3, [(1, 9)]⟩ ("oops".data) = (⟨true, 3, [(1, 9)]⟩, [], [parseErrorLog]) :=
  C8_parse_error_nonfatal ⟨true, 3, [(1, 9)]⟩ ("oops".data) rfl

/-- C10: for a matched response the dispatch tests the truthiness of the
error field: when error is absent or the empty string the waiter's
promise resolves with the result field, and the rejection carrying the
error text, a newline, and traceback-or-empty occurs exactly when error
is a non-empty string. -/
theorem C10_error_truthiness :
    (∀ (s : CState) (r : McpResponse) (i : Int) (c : Nat),
       r.id = some i → plook s.pending i = some c →
       (r.error = none ∨ r.error = some "") →
       (handleResponse s r).2 = [⟨i, c, Outcome.resolved r.result, SettlePath.byResponse⟩])
  ∧ (∀ (s : CState) (r : McpResponse) (i : Int) (c : Nat) (e : String),
       r.id = some i → plook s.pending i = some c →
       r.error = some e → e ≠ "" →
       (handleResponse s r).2
         = [⟨i, c, Outcome.rejected (e ++ "\n" ++ r.traceback.getD ""), SettlePath.byResponse⟩]) := by
  constructor
  · intro s r i c hid hp herr
    rw [handleResponse_found s r i c hid hp]
    rcases herr with h | h <;> simp [outcomeOf, h]
  · intro s r i c e hid hp herr hne
    rw [handleResponse_found s r i c hid hp]
    simp [outcomeOf, herr, hne]

/-- C10 witness: an empty-string error resolves (falsy), a non-empty
error rejects with text, newline and traceback. -/
theorem C10_error_truthiness_witness :
    (handleResponse ⟨true, 2, [(1, 5)]⟩ ⟨some 1, some (Json.num 42), some "", none⟩).2
      = [⟨1, 5, Outcome.resolved (some (Json.num 42)), SettlePath.byResponse⟩]
    ∧ (handleResponse ⟨true, 2, [(1, 5)]⟩ ⟨some 1, none, some "boom", some "tb"⟩).2
      = [⟨1, 5, Outcome.rejected ("boom" ++ "\n" ++ "tb"), SettlePath.byResponse⟩] :=
  ⟨C10_error_truthiness.1 ⟨true, 2, [(1, 5)]⟩ ⟨some 1, some (Json.num 42), some "", none⟩ 1 5
     rfl rfl (Or.inr rfl),
   C10_error_truthiness.2 ⟨true, 2, [(1, 5)]⟩ ⟨some 1, none, some "boom", some "tb"⟩ 1 5 "boom"
     rfl rfl rfl (by decide)⟩

/-! Lemmas: traces without registrations settle each id at most once. -/

namespace Client

theorem registerPending_fst (s : CState) (c : Nat) :
    (registerPending s c).1 = ⟨s.up, s.nextId + 1, s.pending ++ [(s.nextId, c)]⟩ := rfl

theorem registerPending_snd (s : CState) (c : Nat) :
    (registerPending s c).2 = s.nextId := rfl

theorem step_noreg_spec (s : CState) (e : ClientEv)
    (hne : ∀ c, e ≠ ClientEv.register c)
    (hn : (pkeys s.pending).Nodup) :
    (pkeys (step s e).1.pending).Nodup
    ∧ (∀ j, j ∈ pkeys (step s e).1.pending → j ∈ pkeys s.pending)
    ∧ ((step s e).2.1.map Settlement.id).Nodup
    ∧ (∀ j, j ∈ (step s e).2.1.map Settlement.id →
         j ∈ pkeys s.pending ∧ j ∉ pkeys (step s e).1.pending) := by
  cases e with
  | register c => exact absurd rfl (hne c)
  | response r =>
    rw [step_response]
    cases hid : r.id with
    | none =>
      rw [handleResponse_miss_id s r hid]
      exact ⟨hn, fun j h => h, List.nodup_nil, fun j h => absurd h (by simp)⟩
    | some i =>
      cases hp : plook s.pending i with
      | none =>
        rw [handleResponse_miss s r i hid hp]
        exact ⟨hn, fun j h => h, List.nodup_nil, fun j h => absurd h (by simp)⟩
      | some c =>
        rw [handleResponse_found s r i c hid hp]
        refine ⟨nodup_pkeys_perase _ _ hn, fun j h => pkeys_perase_subset _ _ j h, by simp, ?_⟩
        intro j h
        simp at h
        subst h
        refine ⟨mem_pkeys_of_plook _ _ _ hp, ?_⟩
        rw [← plook_none_iff]
        exact plook_perase_self _ _ hn
  | timeout i m =>
    rw [step_timeout]
    cases hp : plook s.pending i with
    | none =>
      rw [handleTimeout_miss s i m hp]
      exact ⟨hn, fun j h => h, List.nodup_nil, fun j h => absurd h (by simp)⟩
    | some c =>
      rw [handleTimeout_found s i m c hp]
      refine ⟨nodup_pkeys_perase _ _ hn, fun j h => pkeys_perase_subset _ _ j h, by simp, ?_⟩
      intro j h
      simp at h
      subst h
      refine ⟨mem_pkeys_of_plook _ _ _ hp, ?_⟩
      rw [← plook_none_iff]
      exact plook_perase_self _ _ hn
  | teardown =>
    rw [step_teardown]
    have hmap : ((cleanup s).2.map Settlement.id) = pkeys s.pending := by
      simp [cleanup, pkeys, List.map_map]
    refine ⟨by simp [cleanup, pkeys], ?_, ?_, ?_⟩
    · intro j h
      simp [cleanup, pkeys] at h
    · rw [hmap]
      exact hn
    · intro j h
      rw [hmap] at h
      refine ⟨h, ?_⟩
      simp [cleanup, pkeys]

theorem runTrace_noreg_spec :
    ∀ (tr : List ClientEv) (s : CState),
      (pkeys s.pending).Nodup →
      (∀ e ∈ tr, ∀ c, e ≠ ClientEv.register c) →
      (pkeys (runTrace s tr).1.pending).Nodup
      ∧ (∀ j, j ∈ pkeys (runTrace s tr).1.pending → j ∈ pkeys s.pending)
      ∧ ((runTrace s tr).2.1.map Settlement.id).Nodup
      ∧ (∀ j, j ∈ (runTrace s tr).2.1.map Settlement.id →
           j ∈ pkeys s.pending ∧ j ∉ pkeys (runTrace s tr).1.pending) := by
  intro tr
  induction tr with
  | nil =>
    intro s hn _
    rw [runTrace_nil]
    exact ⟨hn, fun j h => h, List.nodup_nil, fun j h => absurd h (by simp)⟩
  | cons e tr ih =>
    intro s hn hnr
    have hne : ∀ c, e ≠ ClientEv.register c := fun c => hnr e (List.mem_cons_self _ _) c
    obtain ⟨h1, h2, h3, h4⟩ := step_noreg_spec s e hne hn
    obtain ⟨g1, g2, g3, g4⟩ :=
      ih (step s e).1 h1 (fun e2 he2 c => hnr e2 (List.mem_cons_of_mem _ he2) c)
    rw [runTrace_cons]
    refine ⟨g1, fun j hj => h2 j (g2 j hj), ?_, ?_⟩
    · rw [List.map_append]
      refine List.Nodup.append h3 g3 ?_
      intro a ha1 ha2
      exact (h4 a ha1).2 ((g4 a ha2).1)
    · intro j hj
      rw [List.map_append] at hj
      rcases List.mem_append.mp hj with hj1 | hj2
      · obtain ⟨ha, hb⟩ := h4 j hj1
        exact ⟨ha, fun hmem => hb (g2 j hmem)⟩
      · obtain ⟨ha, hb⟩ := g4 j hj2
        exact ⟨h2 j ha, hb⟩

end Client

/-- C2: over any event trace without new registrations, each pending
identifier is settled and removed at most once — the response, timeout
and teardown removal paths are mutually exclusive per identifier; and
once the timeout for an identifier has fired and dropped the entry, a
response bearing that identifier delivers nothing to the abandoned
caller. -/
theorem C2_pending_settled_at_most_once :
    (∀ (s : CState) (tr : List ClientEv),
       (pkeys s.pending).Nodup →
       (∀ e ∈ tr, ∀ c, e ≠ ClientEv.register c) →
       (((runTrace s tr).2.1).map Settlement.id).Nodup)
  ∧ (∀ (s : CState) (i : Int) (m : String) (r : McpResponse) (c : Nat),
       (pkeys s.pending).Nodup →
       plook s.pending i = some c →
       r.id = some i →
       (handleResponse (handleTimeout s i m).1 r).2 = []) := by
  constructor
  · intro s tr hn hnr
    exact (runTrace_noreg_spec tr s hn hnr).2.2.1
  · intro s i m r c hn hp hid
    rw [handleTimeout_found s i m c hp]
    rw [handleResponse_miss _ r i hid (plook_perase_self s.pending i hn)]

/-- C2 witness: a timeout fires for id 1, then a late response with id 1
arrives, then teardown; every settlement id occurs at most once, and the
late response after the fired timeout delivers nothing. -/
theorem C2_pending_settled_at_most_once_witness :
    (((runTrace ⟨true, 3, [(1, 100), (2, 200)]⟩
        [ClientEv.timeout 1 "ping",
         ClientEv.response ⟨some 1, some Json.null, none, none⟩,
         ClientEv.teardown]).2.1).map Settlement.id).Nodup
    ∧ (handleResponse (handleTimeout ⟨true, 3, [(1, 100), (2, 200)]⟩ 1 "ping").1
        ⟨some 1, some Json.null, none, none⟩).2 = [] :=
  ⟨C2_pending_settled_at_most_once.1 ⟨true, 3, [(1, 100), (2, 200)]⟩ _ (by decide)
    (by
      intro e he c
      simp at he
      rcases he with rfl | rfl | rfl
      · intro h
        exact ClientEv.noConfusion h
      · intro h
        exact ClientEv.noConfusion h
      · intro h
        exact ClientEv.noConfusion h),
   C2_pending_settled_at_most_once.2 ⟨true, 3, [(1, 100), (2, 200)]⟩ 1 "ping"
     ⟨some 1, some Json.null, none, none⟩ 100 (by decide) (by decide) rfl⟩

/-! Lemmas: counter monotonicity and allocation freshness. -/

namespace Client

theorem goodState_register (s : CState) (c : Nat) (hg : goodState s) :
    goodState (registerPending s c).1 := by
  obtain ⟨hn, hb⟩ := hg
  rw [registerPending_fst]
  constructor
  · show (pkeys (s.pending ++ [(s.nextId, c)])).Nodup
    have hkeys : pkeys (s.pending ++ [(s.nextId, c)]) = pkeys s.pending ++ [s.nextId] := by
      simp [pkeys]
    rw [hkeys]
    refine List.Nodup.append hn (by simp) ?_
    intro a ha1 ha2
    simp at ha2
    subst ha2
    exact absurd (hb _ ha1) (by omega)
  · intro k hk
    show k < s.nextId + 1
    have hkeys : pkeys (s.pending ++ [(s.nextId, c)]) = pkeys s.pending ++ [s.nextId] := by
      simp [pkeys]
    have hk2 : k ∈ pkeys s.pending ++ [s.nextId] := by
      rw [← hkeys]
      exact hk
    rcases List.mem_append.mp hk2 with h | h
    · have := hb k h
      omega
    · simp at h
      omega

theorem step_alloc_spec (s : CState) (e : ClientEv) (hg : goodState s) :
    goodState (step s e).1
    ∧ s.nextId ≤ (step s e).1.nextId
    ∧ ((step s e).2.2 = []
       ∨ ((step s e).2.2 = [s.nextId] ∧ (step s e).1.nextId = s.nextId + 1)) := by
  cases e with
  | register c =>
    rw [step_register, registerPending_snd]
    refine ⟨goodState_register s c hg, ?_, Or.inr ⟨rfl, by rw [registerPending_fst]⟩⟩
    rw [registerPending_fst]
    show s.nextId ≤ s.nextId + 1
    omega
  | response r =>
    rw [step_response]
    cases hid : r.id with
    | none =>
      rw [handleResponse_miss_id s r hid]
      exact ⟨hg, le_refl _, Or.inl rfl⟩
    | some i =>
      cases hp : plook s.pending i with
      | none =>
        rw [handleResponse_miss s r i hid hp]
        exact ⟨hg, le_refl _, Or.inl rfl⟩
      | some c =>
        rw [handleResponse_found s r i c hid hp]
        obtain ⟨hn, hb⟩ := hg
        exact ⟨⟨nodup_pkeys_perase _ _ hn, fun k hk => hb k (pkeys_perase_subset _ _ k hk)⟩,
               le_refl _, Or.inl rfl⟩
  | timeout i m =>
    rw [step_timeout]
    cases hp : plook s.pending i with
    | none =>
      rw [handleTimeout_miss s i m hp]
      exact ⟨hg, le_refl _, Or.inl rfl⟩
    | some c =>
      rw [handleTimeout_found s i m c hp]
      obtain ⟨hn, hb⟩ := hg
      exact ⟨⟨nodup_pkeys_perase _ _ hn, fun k hk => hb k (pkeys_perase_subset _ _ k hk)⟩,
             le_refl _, Or.inl rfl⟩
  | teardown =>
    rw [step_teardown]
    refine ⟨⟨by simp [cleanup, pkeys], ?_⟩, le_refl _, Or.inl rfl⟩
    intro k hk
    simp [cleanup, pkeys] at hk

theorem runTrace_alloc_spec :
    ∀ (tr : List ClientEv) (s : CState),
      goodState s →
      goodState (runTrace s tr).1
      ∧ s.nextId ≤ (runTrace s tr).1.nextId
      ∧ List.Pairwise (· < ·) (runTrace s tr).2.2
      ∧ (∀ a ∈ (runTrace s tr).2.2, s.nextId ≤ a ∧ a < (runTrace s tr).1.nextId) := by
  intro tr
  induction tr with
  | nil =>
    intro s hg
    rw [runTrace_nil]
    exact ⟨hg, le_refl _, List.Pairwise.nil, fun a ha => absurd ha (by simp)⟩
  | cons e tr ih =>
    intro s hg
    obtain ⟨hg1, hmono1, halloc⟩ := step_alloc_spec s e hg
    obtain ⟨g1, g2, g3, g4⟩ := ih (step s e).1 hg1
    rw [runTrace_cons]
    refine ⟨g1, le_trans hmono1 g2, ?_, ?_⟩
    · rcases halloc with h0 | ⟨h1, h2⟩
      · rw [h0]
        simpa using g3
      · rw [h1, List.singleton_append]
        refine List.pairwise_cons.mpr ⟨?_, g3⟩
        intro a ha
        have hge := (g4 a ha).1
        rw [h2] at hge
        omega
    · intro a ha
      show s.nextId ≤ a ∧ a < (runTrace (step s e).1 tr).1.nextId
      rcases halloc with h0 | ⟨h1, h2⟩
      · rw [h0, List.nil_append] at ha
        obtain ⟨ha1, ha2⟩ := g4 a ha
        exact ⟨le_trans hmono1 ha1, ha2⟩
      · rw [h1, List.singleton_append] at ha
        rcases List.mem_cons.mp ha with rfl | ha2
        · refine ⟨le_refl _, ?_⟩
          have := g2
          rw [h2] at this
          omega
        · obtain ⟨hb1, hb2⟩ := g4 a ha2
          rw [h2] at hb1
          exact ⟨by omega, hb2⟩

end Client

/-- C6: request identifiers come from a monotonically increasing counter
and are never reused for the lifetime of the connection: starting from
any well-formed state the counter never decreases, the sequence of
allocated ids is strictly increasing, hence pairwise distinct and
disjoint from every id alive at the start, and the pending table always
maps each identifier to at most one PendingRequest (its keys stay
Nodup). -/
theorem C6_ids_monotone_unique :
    goodState initState
    ∧ (∀ (s : CState) (tr : List ClientEv),
        goodState s →
        goodState (runTrace s tr).1
        ∧ s.nextId ≤ (runTrace s tr).1.nextId
        ∧ List.Pairwise (· < ·) (runTrace s tr).2.2
        ∧ ((runTrace s tr).2.2).Nodup
        ∧ (∀ a ∈ (runTrace s tr).2.2, a ∉ pkeys s.pending)) := by
  constructor
  · exact ⟨List.nodup_nil, fun k hk => absurd hk (List.not_mem_nil k)⟩
  · intro s tr hg
    obtain ⟨g1, g2, g3, g4⟩ := runTrace_alloc_spec tr s hg
    refine ⟨g1, g2, g3, ?_, ?_⟩
    · exact List.Pairwise.imp ne_of_lt g3
    · intro a ha hmem
      have h1 := (g4 a ha).1
      have h2 := hg.2 a hmem
      omega

/-- C6 witness: two registrations from the initial state keep the table
well formed and produce distinct ids. -/
theorem C6_ids_monotone_unique_witness :
    goodState (runTrace initState [ClientEv.register 5, ClientEv.register 6]).1
    ∧ ((runTrace initState [ClientEv.register 5, ClientEv.register 6]).2.2).Nodup :=
  ⟨(C6_ids_monotone_unique.2 initState [ClientEv.register 5, ClientEv.register 6]
      ⟨List.nodup_nil, fun k hk => absurd hk (List.not_mem_nil k)⟩).1,
   (C6_ids_monotone_unique.2 initState [ClientEv.register 5, ClientEv.register 6]
      ⟨List.nodup_nil, fun k hk => absurd hk (List.not_mem_nil k)⟩).2.2.2.1⟩

/-! Lemmas: the retry loop under persistent failure. -/

theorem retryGo_allFail :
    ∀ (rem attempt : Nat) (outcomes : Nat → AttemptResult) (errs : Nat → String) (delay : Nat),
      (∀ k, outcomes k = AttemptResult.failure (errs k)) →
      retryGo outcomes delay attempt rem
        = (Except.error (errs (attempt + rem)), rem + 1, List.replicate rem delay)
| 0, attempt, outcomes, errs, delay, h => by
  rw [retryGo, h attempt]
  show (Except.error (errs attempt), 1, ([] : List Nat)) = _
  rw [Nat.add_zero]
  rfl
| rem + 1, attempt, outcomes, errs, delay, h => by
  have hrec := retryGo_allFail rem (attempt + 1) outcomes errs delay h
  rw [retryGo, h attempt, hrec]
  show (Except.error (errs (attempt + 1 + rem)), rem + 1 + 1, delay :: List.replicate rem delay) = _
  have harith : attempt + 1 + rem = attempt + (rem + 1) := by omega
  rw [harith, List.replicate_succ]

/-- C3: a logical call whose attempts never receive a response follows
the retry policy exactly: each attempt's timer is the 30000 ms
(30-second) timeout whose firing rejects with the timeout message; the
defaults are maxRetries = 3 and retryDelay = 1000 ms; the loop makes
maxRetries + 1 attempts in total, waits retryDelay before each of the
maxRetries retries, and surfaces the last observed error. -/
theorem C3_timeout_retry_policy :
    (∀ (o : RequestOptions) (outcomes : Nat → AttemptResult) (errs : Nat → String),
       (∀ k, outcomes k = AttemptResult.failure (errs k)) →
       sendRequestModel outcomes o
         = (Except.error (errs o.resolvedMaxRetries), o.resolvedMaxRetries + 1,
            List.replicate o.resolvedMaxRetries o.resolvedRetryDelay))
  ∧ RequestOptions.resolvedMaxRetries ⟨none, none⟩ = 3
  ∧ RequestOptions.resolvedRetryDelay ⟨none, none⟩ = 1000
  ∧ attemptTimerMs = 30 * 1000
  ∧ (∀ (s : CState) (c : Nat) (method : String) (params : Option (List (String × Json))),
       (startAttempt s c method params).timerDelayMs = attemptTimerMs)
  ∧ (∀ (s : CState) (i : Int) (m : String) (c : Nat),
       plook s.pending i = some c →
       (handleTimeout s i m).2
         = [⟨i, c, Outcome.rejected (timeoutMessage m), SettlePath.byTimeout⟩]) := by
  refine ⟨?_, rfl, rfl, rfl, fun s c method params => rfl, ?_⟩
  · intro o outcomes errs h
    show retryGo outcomes o.resolvedRetryDelay 0 o.resolvedMaxRetries = _
    rw [retryGo_allFail o.resolvedMaxRetries 0 outcomes errs o.resolvedRetryDelay h,
        Nat.zero_add]
  · intro s i m c hp
    rw [handleTimeout_found s i m c hp]

/-- C3 witness: with default options and attempts that always time out,
the call makes 4 attempts, waits 1000 ms before each of the 3 retries,
and surfaces the timeout error; a registered waiter is rejected with the
timeout message when its timer fires. -/
theorem C3_timeout_retry_policy_witness :
    sendRequestModel (fun _ => AttemptResult.failure "Request timed out after 30 seconds: ping")
        ⟨none, none⟩
      = (Except.error "Request timed out after 30 seconds: ping", 4, List.replicate 3 1000)
    ∧ (handleTimeout ⟨true, 2, [(1, 7)]⟩ 1 "ping").2
      = [⟨1, 7, Outcome.rejected (timeoutMessage "ping"), SettlePath.byTimeout⟩] :=
  ⟨C3_timeout_retry_policy.1 ⟨none, none⟩
     (fun _ => AttemptResult.failure "Request timed out after 30 seconds: ping")
     (fun _ => "Request timed out after 30 seconds: ping") (fun _ => rfl),
   C3_timeout_retry_policy.2.2.2.2.2 ⟨true, 2, [(1, 7)]⟩ 1 "ping" 7 (by decide)⟩

/-- C9: serializing an OutgoingMessage to its single newline-terminated
JSON line and parsing that line back preserves the id field exactly, for
every integer id, method string, and params mapping: the parse of the
wire line returns exactly the serialized object, and extracting its id
field as the decoder does yields the original id. -/
theorem C9_serialize_roundtrip_id :
    ∀ (i : Int) (method : String) (params : Option (List (String × Json))),
      parseJsonChars (serializeRequest ⟨i, method, params⟩)
        = some (reqToJson ⟨i, method, params⟩)
      ∧ (decodeResponse (reqToJson ⟨i, method, params⟩)).id = some i := by
  intro i method params
  constructor
  · exact parseJsonChars_print (reqToJson ⟨i, method, params⟩)
  · cases params with
    | none => simp [decodeResponse, reqToJson, getField, fieldLookup]
    | some ps => simp [decodeResponse, reqToJson, getField, fieldLookup]
